import Mathlib

/-!
Verification development for the MiraTTS studio application (`app_mira.py`).

Strings are modelled as `List Char`.  Python's whitespace class (`\s` in
regular expressions, and the default class stripped by `str.strip`) is
modelled by its ASCII part; all behaviour relevant to the claims is
ASCII-only.  File-system state is modelled as a list of directory entries
(see `Entry` further below); `os.remove` is modelled as succeeding, and a
file whose `open` would raise is modelled by a `none` content.
-/

namespace Mira

/-- ASCII model of Python's whitespace class (`\s` and `str.strip`). -/
def isSpace (c : Char) : Bool :=
  c = ' ' || c = '\t' || c = '\n' || c = '\r' || c = '\x0b' || c = '\x0c'

/-- The three sentence-ending characters of the character class `[.!?]`
in the `split_text` regex of `app_mira.py`. -/
def isTerm (c : Char) : Bool :=
  c = '.' || c = '!' || c = '?'

/-- `hasSep l` is true when `l` contains an occurrence of the split regex
`(?<=[.!?])\s+`, i.e. a sentence terminator immediately followed by a
whitespace character. -/
def hasSep : List Char → Bool
  | a :: b :: rest => (isTerm a && isSpace b) || hasSep (b :: rest)
  | _ => false

/-- `l` contains no terminator-followed-by-whitespace position. -/
def SepFree (l : List Char) : Prop := hasSep l = false

instance (l : List Char) : Decidable (SepFree l) := by
  unfold SepFree; infer_instance

/-- Python's `str.strip()` on the ASCII whitespace model: drop whitespace
from both ends. -/
def pyStrip (l : List Char) : List Char :=
  (((l.dropWhile isSpace).reverse).dropWhile isSpace).reverse

/-- The scanning machine of `re.split(r'(?<=[.!?])\s+', text)`.

* `skip = true` means the scanner is inside a separator (a maximal
  whitespace run that followed a terminator) and is consuming it;
* `prevTerm` records whether the previously consumed character was a
  sentence terminator (the lookbehind);
* `acc` is the current piece, reversed.

In actual use `skip = true` only ever occurs with `acc = []`; the extra
generality keeps the equations uniform. -/
def reSplitGo (skip : Bool) (prevTerm : Bool) (acc : List Char) : List Char → List (List Char)
  | [] => [acc.reverse]
  | c :: rest =>
    if skip then
      if isSpace c then reSplitGo true prevTerm acc rest
      else reSplitGo false (isTerm c) (c :: acc) rest
    else
      if prevTerm && isSpace c then acc.reverse :: reSplitGo true false [] rest
      else reSplitGo false (isTerm c) (c :: acc) rest

/-- `re.split(r'(?<=[.!?])\s+', text)`: the list of pieces between the
(non-overlapping, left-to-right, greedy) matches of the separator regex. -/
def reSplit (l : List Char) : List (List Char) := reSplitGo false false [] l

/-- `split_text` from `app_mira.py`:
`[s.strip() for s in re.split(r'(?<=[.!?])\s+', text) if s.strip()]`. -/
def split_text (text : List Char) : List (List Char) :=
  ((reSplit text).map pyStrip).filter (fun s => !s.isEmpty)

/-- Characters of `l` that are not whitespace, in order. -/
def nonSpace (l : List Char) : List Char := l.filter (fun c => !isSpace c)

/-! ### Lemmas about `hasSep` / `SepFree` -/

lemma ne_append_cons_cons_of_short {l : List Char} (h : l.length ≤ 1) (u v : List Char)
    (a b : Char) : l ≠ u ++ a :: b :: v := by
  intro heq
  rw [heq] at h
  simp only [List.length_append, List.length_cons] at h
  omega

lemma hasSep_eq_true_iff (l : List Char) :
    hasSep l = true ↔
      ∃ u a b v, l = u ++ a :: b :: v ∧ isTerm a = true ∧ isSpace b = true := by
  induction l with
  | nil =>
    simp only [hasSep, Bool.false_eq_true, false_iff]
    rintro ⟨u, a, b, v, heq, -, -⟩
    exact ne_append_cons_cons_of_short (by simp) u v a b heq
  | cons x l ih =>
    cases l with
    | nil =>
      simp only [hasSep, Bool.false_eq_true, false_iff]
      rintro ⟨u, a, b, v, heq, -, -⟩
      exact ne_append_cons_cons_of_short (by simp) u v a b heq
    | cons y t =>
      simp only [hasSep, Bool.or_eq_true, Bool.and_eq_true]
      constructor
      · intro h
        rcases h with ⟨h1, h2⟩ | h
        · exact ⟨[], x, y, t, rfl, h1, h2⟩
        · obtain ⟨u, a, b, v, heq, hta, hsb⟩ := ih.mp h
          exact ⟨x :: u, a, b, v, by rw [heq]; rfl, hta, hsb⟩
      · rintro ⟨u, a, b, v, heq, hta, hsb⟩
        cases u with
        | nil =>
          obtain ⟨rfl, rfl, -⟩ : x = a ∧ y = b ∧ t = v := by simpa using heq
          exact Or.inl ⟨hta, hsb⟩
        | cons c u' =>
          obtain ⟨rfl, htail⟩ : x = c ∧ y :: t = u' ++ a :: b :: v := by simpa using heq
          exact Or.inr (ih.mpr ⟨u', a, b, v, htail, hta, hsb⟩)

lemma sepFree_iff (l : List Char) :
    SepFree l ↔
      ∀ u a b v, l = u ++ a :: b :: v → isTerm a = false ∨ isSpace b = false := by
  unfold SepFree
  rw [← Bool.not_eq_true, hasSep_eq_true_iff]
  constructor
  · intro h u a b v heq
    cases h1 : isTerm a with
    | false => exact Or.inl rfl
    | true =>
      cases h2 : isSpace b with
      | false => exact Or.inr rfl
      | true => exact absurd ⟨u, a, b, v, heq, h1, h2⟩ h
  · rintro h ⟨u, a, b, v, heq, hta, hsb⟩
    rcases h u a b v heq with h' | h' <;> simp_all

lemma sepFree_nil : SepFree [] := by decide

lemma SepFree.of_infix {l₁ l₂ : List Char} (h : l₁ <:+: l₂) (hs : SepFree l₂) : SepFree l₁ := by
  rw [sepFree_iff] at hs ⊢
  intro u a b v heq
  rcases h with ⟨s, t, hst⟩
  exact hs (s ++ u) a b (v ++ t) (by rw [← hst, heq]; simp)

lemma SepFree.snoc {l : List Char} {c : Char} (h : SepFree l)
    (hlast : ∀ a, l.getLast? = some a → isTerm a = false ∨ isSpace c = false) :
    SepFree (l ++ [c]) := by
  rw [sepFree_iff] at h ⊢
  intro u a b v heq
  rcases v.eq_nil_or_concat' with rfl | ⟨v', d, rfl⟩
  · have h2 : l ++ [c] = (u ++ [a]) ++ [b] := by rw [heq]; simp
    obtain ⟨hl, hc⟩ := List.append_inj' h2 rfl
    obtain rfl : c = b := by simpa using hc
    exact hlast a (by rw [hl]; exact List.getLast?_concat u)
  · have h2 : l ++ [c] = (u ++ a :: b :: v') ++ [d] := by rw [heq]; simp
    obtain ⟨hl, -⟩ := List.append_inj' h2 rfl
    exact h u a b v' hl

/-! ### Lemmas about `pyStrip` -/

/-- The left half of `pyStrip` (strip leading whitespace). -/
def stripL (l : List Char) : List Char := l.dropWhile isSpace

/-- The right half of `pyStrip` (strip trailing whitespace). -/
def stripR (l : List Char) : List Char := (l.reverse.dropWhile isSpace).reverse

lemma pyStrip_eq (l : List Char) : pyStrip l = stripR (stripL l) := rfl

lemma dropWhile_dropWhile (p : Char → Bool) (l : List Char) :
    (l.dropWhile p).dropWhile p = l.dropWhile p := by
  induction l with
  | nil => rfl
  | cons a l ih =>
    rw [List.dropWhile_cons]
    by_cases h : p a
    · simpa [h] using ih
    · simp [List.dropWhile_cons, h]

lemma head_dropWhile_false (p : Char → Bool) (l : List Char) {c : Char} {t : List Char}
    (h : l.dropWhile p = c :: t) : p c = false := by
  induction l with
  | nil => simp [List.dropWhile] at h
  | cons a l ih =>
    rw [List.dropWhile_cons] at h
    split at h
    · exact ih h
    · cases h
      next hpa => simpa using hpa

lemma stripR_idem (l : List Char) : stripR (stripR l) = stripR l := by
  unfold stripR
  rw [List.reverse_reverse, dropWhile_dropWhile]

lemma stripL_suffix (l : List Char) : stripL l <:+ l := List.dropWhile_suffix isSpace

lemma stripR_take (l : List Char) : stripR l <+: l := by
  rcases List.dropWhile_suffix (l := l.reverse) isSpace with ⟨s, hs⟩
  refine ⟨s.reverse, ?_⟩
  show (l.reverse.dropWhile isSpace).reverse ++ s.reverse = l
  rw [← List.reverse_append, hs, List.reverse_reverse]

lemma stripL_stripR_stripL (l : List Char) :
    stripL (stripR (stripL l)) = stripR (stripL l) := by
  cases h : stripR (stripL l) with
  | nil => rfl
  | cons c t =>
    have hpre := stripR_take (stripL l)
    rw [h] at hpre
    rcases hpre with ⟨u, hu⟩
    have hl : l.dropWhile isSpace = c :: (t ++ u) := by
      have := hu.symm
      simpa [stripL] using this
    have hc : isSpace c = false := head_dropWhile_false isSpace l hl
    simp [stripL, List.dropWhile_cons, hc]

lemma pyStrip_idem (l : List Char) : pyStrip (pyStrip l) = pyStrip l := by
  rw [pyStrip_eq, pyStrip_eq, stripL_stripR_stripL, stripR_idem]

lemma pyStrip_infix_self (l : List Char) : pyStrip l <:+: l := by
  rcases stripR_take (stripL l) with ⟨u, hu⟩
  rcases stripL_suffix l with ⟨s, hs⟩
  exact ⟨s, u, by rw [pyStrip_eq, List.append_assoc, hu, hs]⟩

/-! ### The pieces of `reSplit` are separator-free -/

/-- The lookbehind flag corresponding to an accumulated (reversed) piece. -/
def accFlag : List Char → Bool
  | [] => false
  | c :: _ => isTerm c

lemma sepFree_snoc_acc {acc : List Char} {c : Char} (hacc : SepFree acc.reverse)
    (h : ∀ x acc', acc = x :: acc' → isTerm x = false ∨ isSpace c = false) :
    SepFree ((c :: acc).reverse) := by
  rw [List.reverse_cons]
  refine hacc.snoc ?_
  intro a ha
  cases acc with
  | nil => simp at ha
  | cons x acc' =>
    rw [List.reverse_cons, List.getLast?_concat] at ha
    obtain rfl : x = a := by simpa using ha
    exact h x acc' rfl

lemma reSplitGo_pieces :
    ∀ (l : List Char) (skip prevTerm : Bool) (acc : List Char),
      SepFree acc.reverse → (skip = false → prevTerm = accFlag acc) →
      ∀ p ∈ reSplitGo skip prevTerm acc l, SepFree p := by
  intro l
  induction l with
  | nil =>
    intro skip pT acc hacc _ p hp
    simp only [reSplitGo, List.mem_singleton] at hp
    subst hp
    exact hacc
  | cons c rest ih =>
    intro skip pT acc hacc hflag p hp
    simp only [reSplitGo] at hp
    by_cases hskip : skip = true
    · subst hskip
      rw [if_pos rfl] at hp
      by_cases hsc : isSpace c = true
      · rw [if_pos hsc] at hp
        exact ih true pT acc hacc (fun h => nomatch h) p hp
      · rw [if_neg (by simpa using hsc)] at hp
        refine ih false (isTerm c) (c :: acc) ?_ (fun _ => rfl) p hp
        exact sepFree_snoc_acc hacc (fun _ _ _ => Or.inr (by simpa using hsc))
    · replace hskip : skip = false := by simpa using hskip
      subst hskip
      rw [if_neg (by simp)] at hp
      by_cases hand : (pT && isSpace c) = true
      · rw [if_pos hand] at hp
        rcases List.mem_cons.mp hp with rfl | hp'
        · exact hacc
        · exact ih true false [] sepFree_nil (fun h => nomatch h) p hp'
      · replace hand : (pT && isSpace c) = false := by simpa using hand
        rw [if_neg (by simp [hand])] at hp
        refine ih false (isTerm c) (c :: acc) ?_ (fun _ => rfl) p hp
        refine sepFree_snoc_acc hacc ?_
        intro x acc' haeq
        have hpt : pT = isTerm x := by rw [hflag rfl, haeq]; rfl
        cases hta : isTerm x with
        | false => exact Or.inl rfl
        | true =>
          refine Or.inr ?_
          rw [hpt, hta, Bool.true_and] at hand
          exact hand

lemma mem_reSplit_sepFree {x p : List Char} (hp : p ∈ reSplit x) : SepFree p :=
  reSplitGo_pieces x false false [] sepFree_nil (fun _ => rfl) p hp

lemma reSplitGo_of_sepFree :
    ∀ (l : List Char) (prevTerm : Bool) (acc : List Char),
      SepFree (acc.reverse ++ l) → prevTerm = accFlag acc →
      reSplitGo false prevTerm acc l = [acc.reverse ++ l] := by
  intro l
  induction l with
  | nil =>
    intro pT acc _ _
    simp [reSplitGo]
  | cons c rest ih =>
    intro pT acc hsf hflag
    have hsplit : (pT && isSpace c) = false := by
      cases acc with
      | nil =>
        have hpt : pT = false := hflag
        simp [hpt]
      | cons x acc' =>
        have hpt : pT = isTerm x := hflag
        cases hta : isTerm x with
        | false => simp [hpt, hta]
        | true =>
          cases hsc : isSpace c with
          | false => simp [hsc]
          | true =>
            exfalso
            have hdec : (x :: acc').reverse ++ c :: rest =
                acc'.reverse ++ x :: c :: rest := by simp
            rcases (sepFree_iff _).mp hsf acc'.reverse x c rest hdec with h | h
            · rw [hta] at h; cases h
            · rw [hsc] at h; cases h
    simp only [reSplitGo]
    rw [if_neg (by simp), if_neg (by simp [hsplit])]
    have heq : (c :: acc).reverse ++ rest = acc.reverse ++ c :: rest := by simp
    rw [ih (isTerm c) (c :: acc) (by rw [heq]; exact hsf) rfl, heq]

lemma reSplit_of_sepFree {l : List Char} (h : SepFree l) : reSplit l = [l] := by
  have := reSplitGo_of_sepFree l false [] (by simpa using h) rfl
  simpa [reSplit] using this

/-! ### Non-whitespace content is preserved -/

lemma nonSpace_append (l₁ l₂ : List Char) :
    nonSpace (l₁ ++ l₂) = nonSpace l₁ ++ nonSpace l₂ :=
  List.filter_append l₁ l₂

lemma nonSpace_dropWhile (l : List Char) : nonSpace (l.dropWhile isSpace) = nonSpace l := by
  induction l with
  | nil => rfl
  | cons a l ih =>
    rw [List.dropWhile_cons]
    by_cases h : isSpace a = true
    · rw [if_pos h, ih]
      simp [nonSpace, List.filter_cons, h]
    · rw [if_neg h]

lemma nonSpace_reverse (l : List Char) : nonSpace l.reverse = (nonSpace l).reverse :=
  List.filter_reverse _ _

lemma nonSpace_pyStrip (l : List Char) : nonSpace (pyStrip l) = nonSpace l := by
  rw [pyStrip_eq]
  unfold stripR stripL
  rw [nonSpace_reverse, nonSpace_dropWhile, nonSpace_reverse, List.reverse_reverse,
    nonSpace_dropWhile]

lemma reSplitGo_nonSpace :
    ∀ (l : List Char) (skip prevTerm : Bool) (acc : List Char),
      nonSpace (List.flatten (reSplitGo skip prevTerm acc l)) =
        nonSpace acc.reverse ++ nonSpace l := by
  intro l
  induction l with
  | nil =>
    intro skip pT acc
    simp [reSplitGo, nonSpace]
  | cons c rest ih =>
    intro skip pT acc
    simp only [reSplitGo]
    by_cases hskip : skip = true
    · subst hskip
      rw [if_pos rfl]
      by_cases hsc : isSpace c = true
      · rw [if_pos hsc, ih]
        simp [nonSpace, List.filter_cons, hsc]
      · rw [if_neg (by simpa using hsc), ih]
        simp [nonSpace, List.filter_cons, hsc]
    · replace hskip : skip = false := by simpa using hskip
      subst hskip
      rw [if_neg (by simp)]
      by_cases hand : (pT && isSpace c) = true
      · rw [if_pos hand]
        have hsc : isSpace c = true := by
          simp only [Bool.and_eq_true] at hand
          exact hand.2
        rw [List.flatten_cons, nonSpace_append, ih]
        simp [nonSpace, List.filter_cons, hsc]
      · rw [if_neg hand, ih]
        by_cases hsc : isSpace c = true <;>
          simp [nonSpace, List.filter_cons, hsc]

lemma reSplit_nonSpace (x : List Char) :
    nonSpace (List.flatten (reSplit x)) = nonSpace x := by
  have := reSplitGo_nonSpace x false false []
  simpa [reSplit, nonSpace] using this

lemma split_text_nonSpace (x : List Char) :
    nonSpace (List.flatten (split_text x)) = nonSpace x := by
  rw [← reSplit_nonSpace x]
  unfold split_text
  generalize reSplit x = ps
  induction ps with
  | nil => rfl
  | cons p ps ih =>
    rw [List.map_cons, List.flatten_cons, nonSpace_append]
    by_cases h : (pyStrip p).isEmpty = true
    · have hplain : pyStrip p = [] := by simpa using h
      rw [List.filter_cons, if_neg (by simp [h]), ih]
      have hns : nonSpace p = [] := by rw [← nonSpace_pyStrip, hplain]; rfl
      rw [hns, List.nil_append]
    · rw [List.filter_cons, if_pos (by simpa using h), List.flatten_cons, nonSpace_append,
        nonSpace_pyStrip, ih]

/-! ### Structure of `split_text` results -/

lemma mem_split_text {x t : List Char} (h : t ∈ split_text x) :
    t ≠ [] ∧ pyStrip t = t ∧ SepFree t := by
  unfold split_text at h
  obtain ⟨hmem, hne⟩ := List.mem_filter.mp h
  obtain ⟨p, hp, rfl⟩ := List.mem_map.mp hmem
  exact ⟨by simpa using hne, pyStrip_idem p,
    SepFree.of_infix (pyStrip_infix_self p) (mem_reSplit_sepFree hp)⟩

lemma split_text_of_sepFree {l : List Char} (h : SepFree l) :
    split_text l = if pyStrip l = [] then [] else [pyStrip l] := by
  unfold split_text
  rw [reSplit_of_sepFree h, List.map_cons, List.map_nil]
  by_cases hempty : pyStrip l = []
  · simp [hempty]
  · simp [hempty]

lemma split_text_self {t : List Char} (h1 : t ≠ []) (h2 : pyStrip t = t) (h3 : SepFree t) :
    split_text t = [t] := by
  rw [split_text_of_sepFree h3, h2, if_neg h1]

example : split_text "Hello world. How are you?".data =
    ["Hello world.".data, "How are you?".data] := by decide
example : split_text "no punctuation here".data = ["no punctuation here".data] := by decide
example : split_text "   ".data = [] := by decide
example : split_text "Hi. Bye.".data = ["Hi.".data, "Bye.".data] := by decide
example : split_text "a. . b".data = ["a.".data, ".".data, "b".data] := by decide
example : split_text "".data = [] := by decide
example : split_text "x!\t \ny".data = ["x!".data, "y".data] := by decide

/-! ## File-system model

A directory is a list of entries.  `isFile` distinguishes regular files
from other entries (directories); `mtime` is the modification time;
`content` is the text readable from the entry — `none` means `open` on
the entry would raise (unreadable file, or a directory). -/

structure Entry where
  name : List Char
  isFile : Bool
  mtime : Nat
  content : Option (List Char)
deriving DecidableEq

/-- `l` ends with the suffix `suf`. -/
def endsWith (suf l : List Char) : Bool := suf.reverse.isPrefixOf l.reverse

/-- The glob pattern `mira_*.wav` (as used by `rotate_files` and
`get_history`): any name beginning with `mira_` and ending with `.wav`. -/
def globMiraWav (name : List Char) : Bool :=
  "mira_".data.isPrefixOf name && endsWith ".wav".data name

/-- Python's `wav_path.replace(".wav", ".txt")`: replace every
(left-to-right, non-overlapping) occurrence of `.wav` by `.txt`. -/
def replaceWavTxt : List Char → List Char
  | [] => []
  | [c] => [c]
  | [c, a] => [c, a]
  | [c, a, b] => [c, a, b]
  | c :: a :: b :: d :: t =>
    if c = '.' ∧ a = 'w' ∧ b = 'a' ∧ d = 'v' then
      '.' :: 't' :: 'x' :: 't' :: replaceWavTxt t
    else c :: replaceWavTxt (a :: b :: d :: t)

/-- Insert an entry into a list sorted by modification time descending,
before the first entry that is not strictly newer. -/
def insertDesc (a : Entry) : List Entry → List Entry
  | [] => [a]
  | b :: l => if b.mtime ≤ a.mtime then a :: b :: l else b :: insertDesc a l

/-- `sorted(files, key=os.path.getmtime, reverse=True)`: stable sort by
modification time descending (stability is by insertion position). -/
def sortDesc : List Entry → List Entry
  | [] => []
  | a :: l => insertDesc a (sortDesc l)

/-- The `mira_*.wav` entries ordered by modification time descending —
the common enumeration of `rotate_files` and `get_history`. -/
def sortedWavs (d : List Entry) : List Entry :=
  sortDesc (d.filter (fun e => globMiraWav e.name))

/-- `rotate_files` of `app_mira.py` (`MAX_HISTORY = 5`): delete every
`mira_*.wav` beyond rank 5 of the newest-first order together with its
`.txt` sidecar when present.  Deletion (`os.remove`) is modelled as
succeeding; a file is deleted by dropping every entry carrying its name. -/
def rotate_files (d : List Entry) : List Entry :=
  d.filter (fun e =>
    !(decide (e.name ∈ ((sortedWavs d).drop 5).map Entry.name) ||
      decide (e.name ∈ (((sortedWavs d).drop 5).map Entry.name).map replaceWavTxt)))

/-- Head parser shared by the two readings of the startup-cleanup regex:
on a name of the form `mira_<8 digits>-<6 digits>.<ext>` return `ext`,
otherwise `none`.  Digits are ASCII (`Char.isDigit`). -/
def miraBody : List Char → Option (List Char)
  | 'm' :: 'i' :: 'r' :: 'a' :: '_' :: d1 :: d2 :: d3 :: d4 :: d5 :: d6 :: d7 :: d8 :: '-' ::
      t1 :: t2 :: t3 :: t4 :: t5 :: t6 :: '.' :: ext =>
    if [d1, d2, d3, d4, d5, d6, d7, d8, t1, t2, t3, t4, t5, t6].all Char.isDigit then some ext
    else none
  | _ => none

/-- `re.compile(r'^mira_\d{8}-\d{6}\.(wav|txt)$').match(name)`: Python's
`$` matches at the end of the string or just before a newline at the end
of the string, so the pattern also accepts a single trailing newline
after the extension. -/
def matchesMira (name : List Char) : Bool :=
  match miraBody name with
  | some ext =>
    decide (ext = "wav".data) || decide (ext = "txt".data) ||
      decide (ext = "wav\n".data) || decide (ext = "txt\n".data)
  | none => false

/-- Modelled from the spec: the naming pattern
`mira_<8-digit-date>-<6-digit-time>.(wav|txt)` exactly as the claims read
it, i.e. with the extension ending the name outright. -/
def matchesMiraSpec (name : List Char) : Bool :=
  match miraBody name with
  | some ext => decide (ext = "wav".data) || decide (ext = "txt".data)
  | none => false

/-- The deletion test of `cleanup_on_launch`: a regular file whose name
does not match the naming-convention regex. -/
def removesOnLaunch (e : Entry) : Bool := e.isFile && !matchesMira e.name

/-- `cleanup_on_launch` of `app_mira.py`; `os.remove` modelled as
succeeding. -/
def cleanup_on_launch (d : List Entry) : List Entry :=
  d.filter (fun e => !removesOnLaunch e)

/-- `(full[:60] + '...') if len(full) > 60 else full` where
`full = f.read().strip()` — the sidebar preview of a transcript. -/
def previewOf (raw : List Char) : List Char :=
  if 60 < (pyStrip raw).length then (pyStrip raw).take 60 ++ "...".data else pyStrip raw

/-- The placeholder preview used when a sidecar text file is absent. -/
def noTextFound : List Char := "No text found".data

/-- One sidebar history item: `{'wav': wav_path, 'text': preview,
'name': os.path.basename(wav_path)}` (paths are modelled by names). -/
structure HistEntry where
  wav : List Char
  text : List Char
  name : List Char
deriving DecidableEq

/-- `os.path.exists(txt_path)` followed by `open(txt_path)`: the first
entry carrying the sidecar name, if any. -/
def findSidecar (d : List Entry) (w : Entry) : Option Entry :=
  d.find? (fun e => decide (e.name = replaceWavTxt w.name))

/-- The loop body of `get_history`: one history item per listed wav; a
missing sidecar yields the placeholder, a sidecar whose `open`/`read`
raises (content `none`) propagates the exception. -/
def get_historyGo (d : List Entry) : List Entry → Except Unit (List HistEntry)
  | [] => .ok []
  | w :: rest =>
    match findSidecar d w with
    | none => (get_historyGo d rest).map (fun h => ⟨w.name, noTextFound, w.name⟩ :: h)
    | some e =>
      match e.content with
      | none => .error ()
      | some c => (get_historyGo d rest).map (fun h => ⟨w.name, previewOf c, w.name⟩ :: h)

/-- `get_history` of `app_mira.py`.  The argument is `none` when the
output directory cannot be enumerated (`glob.glob` swallows the OS error
and yields no paths). -/
def get_history (dir : Option (List Entry)) : Except Unit (List HistEntry) :=
  match dir with
  | none => .ok []
  | some d => get_historyGo d ((sortedWavs d).take 5)

/-! ## The generate-button handler -/

/-- Observable outcome of one press of the Generate button: the error
shown (if any), the reference paths passed to `encode_audio`, the
argument pairs passed to `batch_generate`, how often `rotate_files` ran,
and the resulting output and reference directories. -/
structure GenResult (Ctx W : Type) where
  errorMsg : Option (List Char)
  encodeCalls : List (List Char)
  generateCalls : List (List (List Char) × List Ctx)
  rotateCalls : Nat
  outDir : List Entry
  refDir : List Entry
deriving DecidableEq

/-- The validation message of the handler. -/
def valMsg : List Char := "Please provide both text and a reference voice.".data

/-- `f"mira_{timestamp}.wav"`. -/
def wavNameOf (s : List Char) : List Char := "mira_".data ++ s ++ ".wav".data

/-- `f"mira_{timestamp}.txt"`. -/
def txtNameOf (s : List Char) : List Char := "mira_".data ++ s ++ ".txt".data

/-- The `.wav` half of a generation artifact.  The audio payload is not
modelled; the file is readable, hence `some []`. -/
def genWav (tsName : List Char) (tsTime : Nat) : Entry :=
  ⟨wavNameOf tsName, true, tsTime, some []⟩

/-- The `.txt` half of a generation artifact: the input text verbatim. -/
def genTxt (tsName : List Char) (tsTime : Nat) (body : List Char) : Entry :=
  ⟨txtNameOf tsName, true, tsTime, some body⟩

/-- The body of `if st.button("Generate Audio", ...)` in `app_mira.py`.

The external model is a parameter: `encode` is `tts_engine.encode_audio`,
`batchGen` is `tts_engine.batch_generate`; an `Except.error` is an
exception raised by the call (caught by the handler's `try`).  `tsName`
is `datetime.now().strftime("%Y%m%d-%H%M%S")` and `tsTime` the
corresponding modification time.  Waveform conversion and the two file
writes are modelled as succeeding. -/
def generateHandler {Ctx W : Type} (encode : List Char → Except (List Char) Ctx)
    (batchGen : List (List Char) → List Ctx → Except (List Char) W)
    (user_text : List Char) (selected_ref : Option (List Char))
    (tsName : List Char) (tsTime : Nat) (outDir refDir : List Entry) : GenResult Ctx W :=
  if user_text = [] ∨ selected_ref = none then
    ⟨some valMsg, [], [], 0, outDir, refDir⟩
  else
    match selected_ref with
    | none => ⟨some valMsg, [], [], 0, outDir, refDir⟩
    | some ref =>
      match encode ref with
      | .error e => ⟨some e, [ref], [], 0, outDir, refDir⟩
      | .ok ctx =>
        let sentences := split_text user_text
        if sentences.length = 0 then ⟨none, [ref], [], 0, outDir, refDir⟩
        else
          let ctxs := List.replicate sentences.length ctx
          match batchGen sentences ctxs with
          | .error e => ⟨some e, [ref], [(sentences, ctxs)], 0, outDir, refDir⟩
          | .ok _ =>
            ⟨none, [ref], [(sentences, ctxs)], 1,
              rotate_files (outDir ++ [genWav tsName tsTime, genTxt tsName tsTime user_text]),
              refDir⟩

/-! ## The generation/rotation loop -/

/-- Output-directory state after `n` successful generations starting from
an empty directory, `rotate_files` running after each write (as in the
handler).  `nm i` renders the timestamp of the `i`-th generation (the
code renders wall-clock seconds; distinct generations are assumed to
render distinct, dot-free timestamps) and the `i`-th generation's
modification time is `i`. -/
def runGens (nm : Nat → List Char) : Nat → List Entry
  | 0 => []
  | n + 1 => rotate_files (runGens nm n ++ [genWav (nm n) n, genTxt (nm n) n (nm n)])

/-- The artifact pairs of generations `lo, lo+1, ..., lo+k-1` in directory
order (oldest first, wav before txt). -/
def pairsE (nm : Nat → List Char) (lo : Nat) : Nat → List Entry
  | 0 => []
  | k + 1 => genWav (nm lo) lo :: genTxt (nm lo) lo (nm lo) :: pairsE nm (lo + 1) k

example : matchesMira "mira_20240101-123456.wav".data = true := by decide
example : matchesMira "mira_20240101-123456.txt".data = true := by decide
example : matchesMira "mira_20240101-123456.wav\n".data = true := by decide
example : matchesMiraSpec "mira_20240101-123456.wav\n".data = false := by decide
example : matchesMira "stray.tmp".data = false := by decide
example : matchesMira "mira_2024010a-123456.wav".data = false := by decide
example : globMiraWav "mira_20240101-123456.wav".data = true := by decide
example : globMiraWav "mira_x.wav".data = true := by decide
example : globMiraWav "mira_20240101-123456.txt".data = false := by decide
example : replaceWavTxt "mira_20240101-123456.wav".data = "mira_20240101-123456.txt".data := by
  decide
example : rotate_files [] = [] := rfl
example : get_history (some []) = .ok [] := rfl

/-! ### Name-structure lemmas -/

lemma wav_txt_ne (x y : List Char) : x ++ ".wav".data ≠ y ++ ".txt".data := by
  intro h
  obtain ⟨-, h2⟩ := List.append_inj' h rfl
  exact absurd h2 (by decide)

lemma endsWith_iff (suf l : List Char) : endsWith suf l = true ↔ suf <:+ l := by
  rw [endsWith, List.isPrefixOf_iff_prefix, List.reverse_prefix]

lemma globMiraWav_wav (s : List Char) :
    globMiraWav ("mira_".data ++ s ++ ".wav".data) = true := by
  unfold globMiraWav
  rw [Bool.and_eq_true]
  constructor
  · rw [List.isPrefixOf_iff_prefix]
    exact ⟨s ++ ".wav".data, rfl⟩
  · rw [endsWith_iff]
    exact ⟨"mira_".data ++ s, by rw [List.append_assoc]⟩

lemma not_endsWith_wav_of_txt (y : List Char) :
    endsWith ".wav".data (y ++ ".txt".data) = false := by
  rw [Bool.eq_false_iff]
  intro h
  rcases (endsWith_iff _ _).mp h with ⟨u, hu⟩
  exact wav_txt_ne u y hu

lemma globMiraWav_txt (s : List Char) :
    globMiraWav ("mira_".data ++ s ++ ".txt".data) = false := by
  have h2 := not_endsWith_wav_of_txt ("mira_".data ++ s)
  unfold globMiraWav
  rw [h2, Bool.and_false]

lemma mira_wav_inj {s t : List Char}
    (h : "mira_".data ++ s ++ ".wav".data = "mira_".data ++ t ++ ".wav".data) : s = t := by
  rw [List.append_assoc, List.append_assoc] at h
  exact List.append_cancel_right (List.append_cancel_left h)

lemma mira_txt_inj {s t : List Char}
    (h : "mira_".data ++ s ++ ".txt".data = "mira_".data ++ t ++ ".txt".data) : s = t := by
  rw [List.append_assoc, List.append_assoc] at h
  exact List.append_cancel_right (List.append_cancel_left h)

lemma mira_wav_ne_txt (s t : List Char) :
    "mira_".data ++ s ++ ".wav".data ≠ "mira_".data ++ t ++ ".txt".data := by
  intro h
  exact wav_txt_ne ("mira_".data ++ s) ("mira_".data ++ t) h

lemma replaceWavTxt_cons_ne {c : Char} (l : List Char) (hc : c ≠ '.') :
    replaceWavTxt (c :: l) = c :: replaceWavTxt l := by
  match l with
  | [] => rfl
  | [a] => rfl
  | [a, b] => rfl
  | a :: b :: d :: t =>
    simp only [replaceWavTxt]
    rw [if_neg (fun h => hc h.1)]

lemma replaceWavTxt_no_dot (x : List Char) (hx : ('.' : Char) ∉ x) :
    replaceWavTxt (x ++ ".wav".data) = x ++ ".txt".data := by
  induction x with
  | nil => rfl
  | cons c x ih =>
    have hc : c ≠ '.' := fun h => hx (List.mem_cons.mpr (Or.inl h.symm))
    rw [List.cons_append, replaceWavTxt_cons_ne _ hc,
      ih (fun h => hx (List.mem_cons_of_mem c h)), List.cons_append]

/-! ### Sorting lemmas -/

lemma mem_insertDesc {x a : Entry} (l : List Entry) :
    x ∈ insertDesc a l ↔ x = a ∨ x ∈ l := by
  induction l with
  | nil => simp [insertDesc]
  | cons b l ih =>
    rw [insertDesc]
    by_cases h : b.mtime ≤ a.mtime
    · rw [if_pos h]
      simp
    · rw [if_neg h, List.mem_cons, ih, List.mem_cons]
      tauto

lemma insertDesc_perm (a : Entry) (l : List Entry) :
    List.Perm (insertDesc a l) (a :: l) := by
  induction l with
  | nil => exact List.Perm.refl _
  | cons b l ih =>
    rw [insertDesc]
    by_cases h : b.mtime ≤ a.mtime
    · rw [if_pos h]
    · rw [if_neg h]
      exact (ih.cons b).trans (List.Perm.swap a b l)

lemma sortDesc_perm (l : List Entry) : List.Perm (sortDesc l) l := by
  induction l with
  | nil => exact List.Perm.refl _
  | cons a l ih => exact (insertDesc_perm a (sortDesc l)).trans (ih.cons a)

lemma mem_sortDesc {x : Entry} {l : List Entry} : x ∈ sortDesc l ↔ x ∈ l :=
  (sortDesc_perm l).mem_iff

lemma insertDesc_pairwise {a : Entry} {l : List Entry}
    (h : l.Pairwise (fun x y => y.mtime ≤ x.mtime)) :
    (insertDesc a l).Pairwise (fun x y => y.mtime ≤ x.mtime) := by
  induction l with
  | nil => simp [insertDesc]
  | cons b l ih =>
    rw [insertDesc]
    rcases List.pairwise_cons.mp h with ⟨hb, hl⟩
    by_cases hba : b.mtime ≤ a.mtime
    · rw [if_pos hba]
      refine List.pairwise_cons.mpr ⟨?_, h⟩
      intro y hy
      rcases List.mem_cons.mp hy with rfl | hy'
      · exact hba
      · exact le_trans (hb y hy') hba
    · rw [if_neg hba]
      refine List.pairwise_cons.mpr ⟨?_, ih hl⟩
      intro y hy
      rcases (mem_insertDesc l).mp hy with rfl | hy'
      · exact le_of_not_le hba
      · exact hb y hy'

lemma sortDesc_pairwise (l : List Entry) :
    (sortDesc l).Pairwise (fun x y => y.mtime ≤ x.mtime) := by
  induction l with
  | nil => simp [sortDesc]
  | cons a l ih => exact insertDesc_pairwise ih

lemma sortDesc_head_max {l : List Entry} {a : Entry} (ha : a ∈ l)
    (hmax : ∀ x ∈ l, x ≠ a → x.mtime < a.mtime) :
    ∃ t, sortDesc l = a :: t ∧ List.Perm (a :: t) l := by
  have hmem : a ∈ sortDesc l := mem_sortDesc.mpr ha
  cases hs : sortDesc l with
  | nil => rw [hs] at hmem; cases hmem
  | cons b t =>
    rw [hs] at hmem
    have hperm : List.Perm (b :: t) l := hs ▸ sortDesc_perm l
    rcases List.mem_cons.mp hmem with rfl | hat
    · exact ⟨t, rfl, hperm⟩
    · by_cases hba : b = a
      · subst hba
        exact ⟨t, rfl, hperm⟩
      · exfalso
        have hpw := sortDesc_pairwise l
        rw [hs] at hpw
        have hle : a.mtime ≤ b.mtime := List.rel_of_pairwise_cons hpw hat
        have hbl : b ∈ l := hperm.mem_iff.mp (List.mem_cons_self b t)
        exact absurd hle (not_le_of_lt (hmax b hbl hba))

lemma insertDesc_append {a : Entry} {l : List Entry}
    (h : ∀ b ∈ l, ¬ b.mtime ≤ a.mtime) : insertDesc a l = l ++ [a] := by
  induction l with
  | nil => rfl
  | cons b l ih =>
    rw [insertDesc, if_neg (h b (List.mem_cons_self b l)),
      ih (fun x hx => h x (List.mem_cons_of_mem b hx))]
    rfl

/-! ### `find?` helper -/

lemma find?_append_of_none {p : Entry → Bool} {l₁ : List Entry} (l₂ : List Entry)
    (h : l₁.find? p = none) : (l₁ ++ l₂).find? p = l₂.find? p := by
  induction l₁ with
  | nil => rfl
  | cons a l ih =>
    rw [List.find?_cons] at h
    cases hpa : p a with
    | true =>
      rw [hpa] at h
      simp at h
    | false =>
      rw [hpa] at h
      rw [List.cons_append, List.find?_cons, hpa]
      exact ih h

/-! ### Rotation of the generation loop -/

/-- The `mira_*.wav` halves of the artifact pairs of generations
`lo, ..., lo+k-1`, oldest first. -/
def wavRunList (nm : Nat → List Char) (lo : Nat) : Nat → List Entry
  | 0 => []
  | k + 1 => genWav (nm lo) lo :: wavRunList nm (lo + 1) k

lemma wavNameOf_inj {s t : List Char} (h : wavNameOf s = wavNameOf t) : s = t :=
  mira_wav_inj h

lemma txtNameOf_inj {s t : List Char} (h : txtNameOf s = txtNameOf t) : s = t :=
  mira_txt_inj h

lemma wavNameOf_ne_txtNameOf (s t : List Char) : wavNameOf s ≠ txtNameOf t :=
  mira_wav_ne_txt s t

lemma globMiraWav_wavNameOf (s : List Char) : globMiraWav (wavNameOf s) = true :=
  globMiraWav_wav s

lemma globMiraWav_txtNameOf (s : List Char) : globMiraWav (txtNameOf s) = false :=
  globMiraWav_txt s

lemma replaceWavTxt_wavNameOf {s : List Char} (hs : ('.' : Char) ∉ s) :
    replaceWavTxt (wavNameOf s) = txtNameOf s := by
  have hdot : ('.' : Char) ∉ "mira_".data ++ s := by
    intro h
    rcases List.mem_append.mp h with h' | h'
    · exact absurd h' (by decide)
    · exact hs h'
  exact replaceWavTxt_no_dot ("mira_".data ++ s) hdot

lemma pairsE_filter_glob (nm : Nat → List Char) :
    ∀ (k lo : Nat),
      (pairsE nm lo k).filter (fun e => globMiraWav e.name) = wavRunList nm lo k := by
  intro k
  induction k with
  | zero => intro lo; rfl
  | succ k ih =>
    intro lo
    rw [pairsE, wavRunList, List.filter_cons, List.filter_cons]
    rw [show (genWav (nm lo) lo).name = wavNameOf (nm lo) from rfl,
      show (genTxt (nm lo) lo (nm lo)).name = txtNameOf (nm lo) from rfl,
      globMiraWav_wavNameOf, globMiraWav_txtNameOf]
    simp only [if_pos, if_neg, Bool.false_eq_true, reduceIte]
    rw [ih (lo + 1)]

lemma wavRunList_length (nm : Nat → List Char) :
    ∀ (k lo : Nat), (wavRunList nm lo k).length = k := by
  intro k
  induction k with
  | zero => intro lo; rfl
  | succ k ih => intro lo; rw [wavRunList, List.length_cons, ih (lo + 1)]

lemma mem_wavRunList {nm : Nat → List Char} :
    ∀ {k lo : Nat} {x : Entry}, x ∈ wavRunList nm lo k →
      ∃ i, lo ≤ i ∧ i < lo + k ∧ x = genWav (nm i) i := by
  intro k
  induction k with
  | zero => intro lo x hx; cases hx
  | succ k ih =>
    intro lo x hx
    rw [wavRunList] at hx
    rcases List.mem_cons.mp hx with rfl | hx'
    · exact ⟨lo, le_refl lo, by omega, rfl⟩
    · obtain ⟨i, h1, h2, h3⟩ := ih hx'
      exact ⟨i, by omega, by omega, h3⟩

lemma mem_pairsE {nm : Nat → List Char} :
    ∀ {k lo : Nat} {x : Entry}, x ∈ pairsE nm lo k →
      ∃ i, lo ≤ i ∧ i < lo + k ∧ (x = genWav (nm i) i ∨ x = genTxt (nm i) i (nm i)) := by
  intro k
  induction k with
  | zero => intro lo x hx; cases hx
  | succ k ih =>
    intro lo x hx
    rw [pairsE] at hx
    rcases List.mem_cons.mp hx with rfl | hx'
    · exact ⟨lo, le_refl lo, by omega, Or.inl rfl⟩
    rcases List.mem_cons.mp hx' with rfl | hx''
    · exact ⟨lo, le_refl lo, by omega, Or.inr rfl⟩
    · obtain ⟨i, h1, h2, h3⟩ := ih hx''
      exact ⟨i, by omega, by omega, h3⟩

lemma sortDesc_wavRunList (nm : Nat → List Char) :
    ∀ (k lo : Nat), sortDesc (wavRunList nm lo k) = (wavRunList nm lo k).reverse := by
  intro k
  induction k with
  | zero => intro lo; rfl
  | succ k ih =>
    intro lo
    rw [wavRunList, sortDesc, ih (lo + 1), List.reverse_cons]
    refine insertDesc_append ?_
    intro b hb
    obtain ⟨i, h1, -, rfl⟩ := mem_wavRunList (List.mem_reverse.mp hb)
    show ¬ i ≤ lo
    omega

lemma rotate_pairsE_le (nm : Nat → List Char) {k : Nat} (lo : Nat) (hk : k ≤ 5) :
    rotate_files (pairsE nm lo k) = pairsE nm lo k := by
  have hdrop : (sortedWavs (pairsE nm lo k)).drop 5 = [] := by
    unfold sortedWavs
    rw [pairsE_filter_glob, sortDesc_wavRunList]
    exact List.drop_eq_nil_of_le (by rw [List.length_reverse, wavRunList_length]; exact hk)
  unfold rotate_files
  rw [hdrop]
  exact List.filter_eq_self.mpr (fun a _ => by simp)

lemma rotate_pairsE_six {nm : Nat → List Char} (hinj : ∀ i j, nm i = nm j → i = j)
    (hdot : ∀ i, ('.' : Char) ∉ nm i) (lo : Nat) :
    rotate_files (pairsE nm lo 6) = pairsE nm (lo + 1) 5 := by
  have hdrop : ∀ (l₁ l₂ : List Entry), l₁.length = 5 → (l₁ ++ l₂).drop 5 = l₂ := by
    intro l₁ l₂ h
    rw [← h, List.drop_left]
  have hdoomed : (sortedWavs (pairsE nm lo 6)).drop 5 = [genWav (nm lo) lo] := by
    unfold sortedWavs
    rw [pairsE_filter_glob, sortDesc_wavRunList,
      show wavRunList nm lo 6 = genWav (nm lo) lo :: wavRunList nm (lo + 1) 5 from rfl,
      List.reverse_cons]
    exact hdrop _ _ (by rw [List.length_reverse, wavRunList_length])
  unfold rotate_files
  rw [hdoomed]
  have hnames : ([genWav (nm lo) lo].map Entry.name) = [wavNameOf (nm lo)] := rfl
  have htxtn : ([wavNameOf (nm lo)].map replaceWavTxt) = [txtNameOf (nm lo)] := by
    rw [List.map_cons, replaceWavTxt_wavNameOf (hdot lo), List.map_nil]
  rw [hnames, htxtn]
  rw [show pairsE nm lo 6 =
      genWav (nm lo) lo :: genTxt (nm lo) lo (nm lo) :: pairsE nm (lo + 1) 5 from rfl]
  rw [List.filter_cons, List.filter_cons]
  rw [if_neg (by simp [genWav]), if_neg (by simp [genTxt])]
  refine List.filter_eq_self.mpr ?_
  intro a ha
  obtain ⟨i, h1, h2, hor⟩ := mem_pairsE ha
  have hne : nm i ≠ nm lo := fun h => absurd (hinj i lo h) (by omega)
  rcases hor with rfl | rfl
  · have hw : wavNameOf (nm i) ≠ wavNameOf (nm lo) := fun h => hne (wavNameOf_inj h)
    have ht : wavNameOf (nm i) ≠ txtNameOf (nm lo) := wavNameOf_ne_txtNameOf _ _
    simp [genWav, hw, ht]
  · have hw : txtNameOf (nm i) ≠ wavNameOf (nm lo) := fun h => wavNameOf_ne_txtNameOf _ _ h.symm
    have ht : txtNameOf (nm i) ≠ txtNameOf (nm lo) := fun h => hne (txtNameOf_inj h)
    simp [genTxt, hw, ht]

lemma pairsE_snoc (nm : Nat → List Char) :
    ∀ (k lo n : Nat), n = lo + k →
      pairsE nm lo k ++ [genWav (nm n) n, genTxt (nm n) n (nm n)] = pairsE nm lo (k + 1) := by
  intro k
  induction k with
  | zero =>
    intro lo n hn
    obtain rfl : n = lo := by omega
    rfl
  | succ k ih =>
    intro lo n hn
    rw [pairsE, List.cons_append, List.cons_append, ih (lo + 1) n (by omega)]
    rfl

lemma runGens_eq {nm : Nat → List Char} (hinj : ∀ i j, nm i = nm j → i = j)
    (hdot : ∀ i, ('.' : Char) ∉ nm i) :
    ∀ N, runGens nm N = pairsE nm (N - min N 5) (min N 5) := by
  intro N
  induction N with
  | zero => rfl
  | succ N ih =>
    rw [runGens, ih]
    by_cases h5 : N < 5
    · rw [show min N 5 = N from by omega, show min (N + 1) 5 = N + 1 from by omega,
        show N - N = 0 from by omega, show N + 1 - (N + 1) = 0 from by omega,
        pairsE_snoc nm N 0 N (by omega)]
      exact rotate_pairsE_le nm 0 (by omega)
    · rw [show min N 5 = 5 from by omega, show min (N + 1) 5 = 5 from by omega,
        pairsE_snoc nm 5 (N - 5) N (by omega),
        rotate_pairsE_six hinj hdot (N - 5),
        show N - 5 + 1 = N + 1 - 5 from by omega]

lemma countP_pairsE (nm : Nat → List Char) (k lo : Nat) :
    (pairsE nm lo k).countP (fun e => globMiraWav e.name) = k := by
  rw [List.countP_eq_length_filter, pairsE_filter_glob, wavRunList_length]

lemma pairsE_mem_of (nm : Nat → List Char) :
    ∀ (k lo i : Nat), lo ≤ i → i < lo + k →
      genWav (nm i) i ∈ pairsE nm lo k ∧ genTxt (nm i) i (nm i) ∈ pairsE nm lo k := by
  intro k
  induction k with
  | zero => intro lo i h1 h2; omega
  | succ k ih =>
    intro lo i h1 h2
    rw [pairsE]
    by_cases hi : i = lo
    · subst hi
      exact ⟨List.mem_cons_self _ _, List.mem_cons_of_mem _ (List.mem_cons_self _ _)⟩
    · have hm := ih (lo + 1) i (by omega) (by omega)
      exact ⟨List.mem_cons_of_mem _ (List.mem_cons_of_mem _ hm.1),
        List.mem_cons_of_mem _ (List.mem_cons_of_mem _ hm.2)⟩

/-! ### Cleanup helpers -/

lemma not_removesOnLaunch_iff (e : Entry) :
    (!removesOnLaunch e) = true ↔ (e.isFile = false ∨ matchesMira e.name = true) := by
  rw [removesOnLaunch]
  cases hf : e.isFile <;> cases hm : matchesMira e.name <;> simp

lemma mem_of_miraBody {name ext : List Char} {c : Char} (h : miraBody name = some ext)
    (hc : c ∈ ext) : c ∈ name := by
  rw [miraBody.eq_def] at h
  split at h
  · split at h
    · obtain rfl : _ = ext := Option.some.inj h
      simp [hc]
    · cases h
  · cases h

lemma matchesMira_of_no_newline {name : List Char} (h : ('\n' : Char) ∉ name) :
    matchesMira name = matchesMiraSpec name := by
  rw [matchesMira, matchesMiraSpec]
  cases hb : miraBody name with
  | none => rfl
  | some ext =>
    have hnl : ('\n' : Char) ∉ ext := fun hm => h (mem_of_miraBody hb hm)
    have h1 : ext ≠ "wav\n".data := fun he => hnl (by rw [he]; decide)
    have h2 : ext ≠ "txt\n".data := fun he => hnl (by rw [he]; decide)
    simp [h1, h2]

/-! ### Whitespace-only elements -/

lemma dropWhile_eq_nil_of_nonSpace_nil {t : List Char} (h : nonSpace t = []) :
    t.dropWhile isSpace = [] := by
  induction t with
  | nil => rfl
  | cons a l ih =>
    rw [nonSpace, List.filter_cons] at h
    cases ha : isSpace a with
    | true =>
      rw [List.dropWhile_cons, if_pos ha]
      refine ih ?_
      rwa [if_neg (by simp [ha])] at h
    | false =>
      rw [if_pos (by simp [ha])] at h
      cases h

lemma nonSpace_ne_nil_of_mem_split_text {x t : List Char} (h : t ∈ split_text x) :
    nonSpace t ≠ [] := by
  obtain ⟨h1, h2, -⟩ := mem_split_text h
  intro hns
  have hL : stripL t = [] := dropWhile_eq_nil_of_nonSpace_nil hns
  have : pyStrip t = [] := by rw [pyStrip_eq, hL]; rfl
  rw [h2] at this
  exact h1 this

/-! ## Claim theorems -/

/-- C1: starting from an empty output directory, after any `N` successful
generations (generation `i` rendered with the injective, dot-free timestamp
string `nm i` and modification time `i`, `rotate_files` running after each
write), the directory holds exactly `min N 5` audio files matching the
`mira_*.wav` pattern; every surviving entry belongs to the artifact pair of
one of the `min N 5` most recent generations; each of those pairs is fully
present; and every older audio file and its `.txt` sidecar have been
deleted. -/
theorem C1_rotation_keeps_min_N_5 (nm : Nat → List Char)
    (hinj : ∀ i j, nm i = nm j → i = j) (hdot : ∀ i, ('.' : Char) ∉ nm i) (N : Nat) :
    ((runGens nm N).countP (fun e => globMiraWav e.name) = min N 5)
    ∧ (∀ e ∈ runGens nm N, ∃ i, i < N ∧ N ≤ i + 5 ∧
        (e = genWav (nm i) i ∨ e = genTxt (nm i) i (nm i)))
    ∧ (∀ i, i < N → N ≤ i + 5 →
        genWav (nm i) i ∈ runGens nm N ∧ genTxt (nm i) i (nm i) ∈ runGens nm N)
    ∧ (∀ i, i + 5 < N →
        genWav (nm i) i ∉ runGens nm N ∧ genTxt (nm i) i (nm i) ∉ runGens nm N) := by
  rw [runGens_eq hinj hdot N]
  refine ⟨countP_pairsE nm _ _, ?_, ?_, ?_⟩
  · intro e he
    obtain ⟨i, h1, h2, hor⟩ := mem_pairsE he
    exact ⟨i, by omega, by omega, hor⟩
  · intro i h1 h2
    exact pairsE_mem_of nm (min N 5) (N - min N 5) i (by omega) (by omega)
  · intro i hi
    constructor
    · intro hmem
      obtain ⟨j, h1, h2, hor⟩ := mem_pairsE hmem
      rcases hor with heq | heq
      · have hj := hinj i j (wavNameOf_inj (congrArg Entry.name heq))
        omega
      · exact wavNameOf_ne_txtNameOf (nm i) (nm j) (congrArg Entry.name heq)
    · intro hmem
      obtain ⟨j, h1, h2, hor⟩ := mem_pairsE hmem
      rcases hor with heq | heq
      · exact wavNameOf_ne_txtNameOf (nm j) (nm i) (congrArg Entry.name heq).symm
      · have hj := hinj i j (txtNameOf_inj (congrArg Entry.name heq))
        omega

/-- Witness for C1: seven generations with concrete (injective, dot-free)
timestamp renderings leave exactly `min 7 5 = 5` audio files. -/
theorem C1_rotation_keeps_min_N_5_witness :
    (runGens (fun i => List.replicate i 'a') 7).countP (fun e => globMiraWav e.name) =
      min 7 5 :=
  (C1_rotation_keeps_min_N_5 (fun i => List.replicate i 'a')
    (fun i j h => by simpa using congrArg List.length h)
    (fun i h => by simp [List.mem_replicate] at h) 7).1

/-- C2: every element of `split_text x` is non-empty, equal to its own strip
(so it neither starts nor ends with whitespace), separator-free and not
whitespace-only; on an input with no terminator-followed-by-whitespace
position the result is the stripped whole input (or nothing when that is
empty); the non-whitespace characters of the input are preserved in order;
and the three documented examples hold. -/
theorem C2_split_text_contract (x : List Char) :
    (∀ t ∈ split_text x, t ≠ [] ∧ pyStrip t = t ∧ SepFree t ∧ nonSpace t ≠ [])
    ∧ (SepFree x → split_text x = if pyStrip x = [] then [] else [pyStrip x])
    ∧ nonSpace (List.flatten (split_text x)) = nonSpace x
    ∧ split_text "Hello world. How are you?".data = ["Hello world.".data, "How are you?".data]
    ∧ split_text "no punctuation here".data = ["no punctuation here".data]
    ∧ split_text "   ".data = [] := by
  refine ⟨fun t ht => ?_, split_text_of_sepFree, split_text_nonSpace x,
    by decide, by decide, by decide⟩
  obtain ⟨h1, h2, h3⟩ := mem_split_text ht
  exact ⟨h1, h2, h3, nonSpace_ne_nil_of_mem_split_text ht⟩

/-- Witness for C2: the element and sep-free hypotheses discharged on the
documented example and on whitespace-only input. -/
theorem C2_split_text_contract_witness :
    ("Hello world.".data ≠ [] ∧ pyStrip "Hello world.".data = "Hello world.".data ∧
      SepFree "Hello world.".data ∧ nonSpace "Hello world.".data ≠ [])
    ∧ split_text "   ".data = if pyStrip "   ".data = [] then [] else [pyStrip "   ".data] :=
  ⟨(C2_split_text_contract "Hello world. How are you?".data).1 "Hello world.".data (by decide),
    (C2_split_text_contract "   ".data).2.1 (by decide)⟩

/-- C9: `split_text` is idempotent on its own results: every returned element
contains no terminator immediately followed by whitespace, and splitting it
again yields exactly that element. -/
theorem C9_split_text_idempotent (x t : List Char) (h : t ∈ split_text x) :
    SepFree t ∧ split_text t = [t] := by
  obtain ⟨h1, h2, h3⟩ := mem_split_text h
  exact ⟨h3, split_text_self h1 h2 h3⟩

/-- Witness for C9 on the documented example. -/
theorem C9_split_text_idempotent_witness :
    SepFree "How are you?".data ∧
      split_text "How are you?".data = ["How are you?".data] :=
  C9_split_text_idempotent "Hello world. How are you?".data "How are you?".data (by decide)

/-- C10: `cleanup_on_launch` only removes regular files: an entry with
`isFile = false` (such as a subdirectory) survives whatever its name. -/
theorem C10_cleanup_keeps_nonfiles (d : List Entry) (e : Entry) (he : e ∈ d)
    (hf : e.isFile = false) : e ∈ cleanup_on_launch d := by
  rw [cleanup_on_launch, List.mem_filter]
  exact ⟨he, by simp [removesOnLaunch, hf]⟩

/-- Witness for C10: a subdirectory with a non-matching name survives. -/
theorem C10_cleanup_keeps_nonfiles_witness :
    (⟨"junk_dir".data, false, 0, none⟩ : Entry) ∈
      cleanup_on_launch [⟨"junk_dir".data, false, 0, none⟩] :=
  C10_cleanup_keeps_nonfiles _ _ (List.mem_singleton.mpr rfl) rfl

/-- C5 counterexample: a regular file named `mira_00000000-000000.wav` followed
by a trailing newline does not match the claimed pattern, yet
`cleanup_on_launch` keeps it — Python's `$` also matches just before a
trailing newline, so the code's regex accepts the name. -/
theorem C5_counterexample :
    cleanup_on_launch [⟨"mira_00000000-000000.wav\n".data, true, 0, none⟩] =
      [⟨"mira_00000000-000000.wav\n".data, true, 0, none⟩]
    ∧ matchesMiraSpec "mira_00000000-000000.wav\n".data = false := by
  exact ⟨by decide, by decide⟩

/-- C5 (amended): `cleanup_on_launch` keeps exactly the non-regular entries
and the regular files accepted by the code's regex, which is the claimed
pattern plus an optional single trailing newline; on newline-free names the
code's regex and the claimed pattern agree exactly. -/
theorem C5_cleanup_exact (d : List Entry) (e : Entry) (he : e ∈ d) :
    (e ∈ cleanup_on_launch d ↔ (e.isFile = false ∨ matchesMira e.name = true))
    ∧ (('\n' : Char) ∉ e.name → matchesMira e.name = matchesMiraSpec e.name) := by
  refine ⟨?_, matchesMira_of_no_newline⟩
  rw [cleanup_on_launch, List.mem_filter]
  rw [not_removesOnLaunch_iff]
  exact ⟨fun h => h.2, fun h => ⟨he, h⟩⟩

/-- Witness for C5 (amended): a well-named file is kept, a stray file is
removed, and the two regex readings agree on these newline-free names. -/
theorem C5_cleanup_exact_witness :
    ((⟨"mira_20240101-123456.wav".data, true, 0, none⟩ : Entry) ∈
        cleanup_on_launch [⟨"mira_20240101-123456.wav".data, true, 0, none⟩,
          ⟨"stray.tmp".data, true, 0, none⟩] ↔
      ((⟨"mira_20240101-123456.wav".data, true, 0, none⟩ : Entry).isFile = false ∨
        matchesMira "mira_20240101-123456.wav".data = true))
    ∧ (('\n' : Char) ∉ "mira_20240101-123456.wav".data →
        matchesMira "mira_20240101-123456.wav".data =
          matchesMiraSpec "mira_20240101-123456.wav".data) :=
  C5_cleanup_exact [⟨"mira_20240101-123456.wav".data, true, 0, none⟩,
    ⟨"stray.tmp".data, true, 0, none⟩] _ (by decide)

/-! ### History-listing lemmas -/

/-- The sidecar of `w` in `d` is safe to read: it is either absent or has
readable content. -/
def sidecarOKb (d : List Entry) (w : Entry) : Bool :=
  match findSidecar d w with
  | some e => e.content.isSome
  | none => true

/-- The history item `get_history` builds for the listed wav `w` (assuming
its sidecar, when present, is readable). -/
def histEntryOf (d : List Entry) (w : Entry) : HistEntry :=
  match findSidecar d w with
  | none => ⟨w.name, noTextFound, w.name⟩
  | some e =>
    match e.content with
    | some c => ⟨w.name, previewOf c, w.name⟩
    | none => ⟨w.name, noTextFound, w.name⟩

lemma get_historyGo_ok (d : List Entry) :
    ∀ ws : List Entry, (∀ w ∈ ws, sidecarOKb d w = true) →
      get_historyGo d ws = .ok (ws.map (histEntryOf d)) := by
  intro ws
  induction ws with
  | nil => intro _; rfl
  | cons w rest ih =>
    intro h
    have hw := h w (List.mem_cons_self w rest)
    have hrest := ih (fun x hx => h x (List.mem_cons_of_mem w hx))
    unfold sidecarOKb at hw
    cases hf : findSidecar d w with
    | none =>
      simp only [get_historyGo, hf, hrest, Except.map, List.map_cons, histEntryOf]
    | some e =>
      simp only [hf] at hw
      cases hc : e.content with
      | none => rw [hc] at hw; simp at hw
      | some c =>
        simp only [get_historyGo, hf, hc, hrest, Except.map, List.map_cons, histEntryOf]

/-- C3 counterexample: an output directory where the wav's sidecar text file
exists but its read fails (content `none`) makes `get_history` raise — the
exception from `open` is not caught, so the listing does fail. -/
theorem C3_counterexample :
    get_history (some [⟨"mira_00000000-000000.wav".data, true, 0, some []⟩,
      ⟨"mira_00000000-000000.txt".data, true, 0, none⟩]) = .error () := by
  rfl

/-- C3 (amended): `get_history` yields the empty listing when the directory
cannot be enumerated; when every existing sidecar of a listed wav is
readable it returns the full listing without raising; and a listed wav
without a sidecar gets the fixed placeholder preview.  (A sidecar that
exists but whose read fails propagates the exception — see the
counterexample.) -/
theorem C3_get_history_tolerance (d : List Entry)
    (h : ∀ w ∈ (sortedWavs d).take 5, sidecarOKb d w = true) :
    get_history none = .ok []
    ∧ get_history (some d) = .ok (((sortedWavs d).take 5).map (histEntryOf d))
    ∧ (∀ w, findSidecar d w = none → histEntryOf d w = ⟨w.name, noTextFound, w.name⟩) := by
  refine ⟨rfl, ?_, ?_⟩
  · exact get_historyGo_ok d _ h
  · intro w hw
    simp only [histEntryOf, hw]

/-- Witness for C3 (amended): a directory whose only wav has no sidecar
lists with the placeholder. -/
theorem C3_get_history_tolerance_witness :
    get_history none = .ok []
    ∧ get_history (some [⟨"mira_00000000-000000.wav".data, true, 0, some []⟩]) =
        .ok (((sortedWavs [⟨"mira_00000000-000000.wav".data, true, 0, some []⟩]).take 5).map
          (histEntryOf [⟨"mira_00000000-000000.wav".data, true, 0, some []⟩]))
    ∧ (∀ w, findSidecar [⟨"mira_00000000-000000.wav".data, true, 0, some []⟩] w = none →
        histEntryOf [⟨"mira_00000000-000000.wav".data, true, 0, some []⟩] w =
          ⟨w.name, noTextFound, w.name⟩) :=
  C3_get_history_tolerance [⟨"mira_00000000-000000.wav".data, true, 0, some []⟩] (by decide)

/-- C4 counterexample: the sidecar transcript `"a "` is two characters long —
not longer than 60 — yet its history preview is the stripped `"a"`, not the
transcript verbatim: the code strips the transcript before previewing. -/
theorem C4_counterexample :
    get_history (some [⟨"mira_00000000-000000.wav".data, true, 0, some []⟩,
        ⟨"mira_00000000-000000.txt".data, true, 0, some ['a', ' ']⟩]) =
      .ok [⟨"mira_00000000-000000.wav".data, ['a'], "mira_00000000-000000.wav".data⟩]
    ∧ (['a'] : List Char) ≠ ['a', ' '] :=
  ⟨rfl, by decide⟩

/-- C4 (amended): the preview is computed from the whitespace-stripped
transcript — its first 60 characters with `"..."` appended when the stripped
transcript is longer than 60 characters, the stripped transcript verbatim
otherwise.  On transcripts that equal their own strip the claim's figures
hold: 61 characters give `take 60 ++ "..."`, 60 give the transcript
verbatim.  The history items built by `get_history` carry exactly this
preview of the sidecar's content. -/
theorem C4_preview_truncation (t : List Char) (h : pyStrip t = t) :
    (60 < t.length → previewOf t = t.take 60 ++ "...".data)
    ∧ (t.length ≤ 60 → previewOf t = t)
    ∧ (t.length = 61 → previewOf t = t.take 60 ++ "...".data)
    ∧ (t.length = 60 → previewOf t = t)
    ∧ (∀ d w e, findSidecar d w = some e → e.content = some t →
        histEntryOf d w = ⟨w.name, previewOf t, w.name⟩) := by
  refine ⟨?_, ?_, ?_, ?_, ?_⟩
  · intro hl
    simp only [previewOf, h]
    rw [if_pos hl]
  · intro hl
    simp only [previewOf, h]
    rw [if_neg (by omega)]
  · intro hl
    simp only [previewOf, h]
    rw [if_pos (by omega)]
  · intro hl
    simp only [previewOf, h]
    rw [if_neg (by omega)]
  · intro d w e hf hc
    simp only [histEntryOf, hf, hc]

/-- Witness for C4 (amended): a 61-character transcript is truncated with an
ellipsis, a 60-character one is verbatim. -/
theorem C4_preview_truncation_witness :
    previewOf (List.replicate 61 'x') = (List.replicate 61 'x').take 60 ++ "...".data
    ∧ previewOf (List.replicate 60 'x') = List.replicate 60 'x' :=
  ⟨(C4_preview_truncation (List.replicate 61 'x') (by decide)).2.2.1 (by decide),
    (C4_preview_truncation (List.replicate 60 'x') (by decide)).2.2.2.1 (by decide)⟩

/-- C6: a generation request with empty input text or no selected reference
reports the validation message and performs nothing else: `encode_audio` and
`batch_generate` are not called, `rotate_files` does not run, and the output
and reference directories are returned unchanged. -/
theorem C6_validation_no_side_effects {Ctx W : Type}
    (encode : List Char → Except (List Char) Ctx)
    (batchGen : List (List Char) → List Ctx → Except (List Char) W)
    (user_text : List Char) (selected_ref : Option (List Char))
    (tsName : List Char) (tsTime : Nat) (outDir refDir : List Entry)
    (h : user_text = [] ∨ selected_ref = none) :
    generateHandler encode batchGen user_text selected_ref tsName tsTime outDir refDir =
      ⟨some valMsg, [], [], 0, outDir, refDir⟩ := by
  unfold generateHandler
  rw [if_pos h]

/-- Witness for C6 at empty input text. -/
theorem C6_validation_no_side_effects_witness :
    @generateHandler Nat Nat (fun _ => .ok 0) (fun _ _ => .ok 0)
      [] (some "ref.wav".data) "20240101-000000".data 1 [] [] =
      ⟨some valMsg, [], [], 0, [], []⟩ :=
  C6_validation_no_side_effects _ _ _ _ _ _ _ _ (Or.inl rfl)

/-- C7: when the text is non-empty but splits into no sentences, the handler
calls `encode_audio` once and then does nothing more: no `batch_generate`
call, no artifact written, no rotation, and no error reported. -/
theorem C7_empty_split_silent_noop {Ctx W : Type}
    (encode : List Char → Except (List Char) Ctx)
    (batchGen : List (List Char) → List Ctx → Except (List Char) W)
    (user_text ref : List Char) (ctx : Ctx)
    (tsName : List Char) (tsTime : Nat) (outDir refDir : List Entry)
    (hne : user_text ≠ []) (henc : encode ref = .ok ctx)
    (hsplit : split_text user_text = []) :
    generateHandler encode batchGen user_text (some ref) tsName tsTime outDir refDir =
      ⟨none, [ref], [], 0, outDir, refDir⟩ := by
  unfold generateHandler
  rw [if_neg (by simp [hne])]
  simp [henc, hsplit]

/-- Witness for C7 on whitespace-only input text. -/
theorem C7_empty_split_silent_noop_witness :
    @generateHandler Nat Nat (fun _ => .ok 7) (fun _ _ => .ok 0)
      "   ".data (some "ref.wav".data) "20240101-000000".data 1 [] [] =
      ⟨none, ["ref.wav".data], [], 0, [], []⟩ :=
  C7_empty_split_silent_noop _ _ _ _ 7 _ _ _ _ (by decide) rfl (by decide)

/-! ### End-to-end generation (C8 support) -/

lemma filter_glob_append_pair (outDir : List Entry) (ts body : List Char) (tsT : Nat) :
    (outDir ++ [genWav ts tsT, genTxt ts tsT body]).filter (fun e => globMiraWav e.name) =
      outDir.filter (fun e => globMiraWav e.name) ++ [genWav ts tsT] := by
  rw [List.filter_append]
  congr 1
  simp [List.filter_cons, genWav, genTxt, globMiraWav_wavNameOf, globMiraWav_txtNameOf]

lemma sortedWavs_append_pair (outDir : List Entry) (ts body : List Char) (tsT : Nat)
    (hmt : ∀ e ∈ outDir, e.mtime < tsT) :
    ∃ t', sortedWavs (outDir ++ [genWav ts tsT, genTxt ts tsT body]) = genWav ts tsT :: t' ∧
      ∀ x ∈ t', x ∈ outDir.filter (fun e => globMiraWav e.name) := by
  unfold sortedWavs
  rw [filter_glob_append_pair]
  have hmem : genWav ts tsT ∈ outDir.filter (fun e => globMiraWav e.name) ++ [genWav ts tsT] :=
    List.mem_append.mpr (Or.inr (List.mem_singleton.mpr rfl))
  have hmax : ∀ x ∈ outDir.filter (fun e => globMiraWav e.name) ++ [genWav ts tsT],
      x ≠ genWav ts tsT → x.mtime < (genWav ts tsT).mtime := by
    intro x hx hne
    rcases List.mem_append.mp hx with hx' | hx'
    · exact hmt x (List.mem_filter.mp hx').1
    · exact absurd (List.mem_singleton.mp hx') hne
  obtain ⟨t', hsort, hperm⟩ := sortDesc_head_max hmem hmax
  refine ⟨t', hsort, ?_⟩
  have hp2 : List.Perm (genWav ts tsT :: t')
      (genWav ts tsT :: outDir.filter (fun e => globMiraWav e.name)) :=
    hperm.trans (List.perm_append_singleton _ _)
  intro x hx
  exact hp2.cons_inv.mem_iff.mp hx

lemma rotate_append_pair (outDir : List Entry) (ts body : List Char) (tsT : Nat)
    (hmt : ∀ e ∈ outDir, e.mtime < tsT)
    (hstruct : ∀ e ∈ outDir, ∃ s, ('.' : Char) ∉ s ∧ s ≠ ts ∧
      (e.name = wavNameOf s ∨ e.name = txtNameOf s)) :
    ∃ keep, rotate_files (outDir ++ [genWav ts tsT, genTxt ts tsT body]) =
        keep ++ [genWav ts tsT, genTxt ts tsT body] ∧ ∀ e ∈ keep, e ∈ outDir := by
  obtain ⟨t', hsort, ht'⟩ := sortedWavs_append_pair outDir ts body tsT hmt
  set dn := ((sortedWavs (outDir ++ [genWav ts tsT, genTxt ts tsT body])).drop 5).map
    Entry.name with hdn
  have hdoomed : ∀ n ∈ dn, ∃ s, ('.' : Char) ∉ s ∧ s ≠ ts ∧ n = wavNameOf s := by
    intro n hn
    rw [hdn] at hn
    obtain ⟨x, hx, rfl⟩ := List.mem_map.mp hn
    rw [hsort, List.drop_succ_cons] at hx
    have hx2 : x ∈ t' := List.drop_subset 4 t' hx
    obtain ⟨hxo, hglob⟩ := List.mem_filter.mp (ht' x hx2)
    obtain ⟨s, hs1, hs2, hshape⟩ := hstruct x hxo
    rcases hshape with hsh | hsh
    · exact ⟨s, hs1, hs2, hsh⟩
    · rw [hsh, globMiraWav_txtNameOf] at hglob
      cases hglob
  have hdoomedTxt : ∀ n ∈ dn.map replaceWavTxt,
      ∃ s, ('.' : Char) ∉ s ∧ s ≠ ts ∧ n = txtNameOf s := by
    intro n hn
    obtain ⟨m, hm, rfl⟩ := List.mem_map.mp hn
    obtain ⟨s, hs1, hs2, rfl⟩ := hdoomed m hm
    exact ⟨s, hs1, hs2, replaceWavTxt_wavNameOf hs1⟩
  have hw1 : wavNameOf ts ∉ dn := by
    intro h
    obtain ⟨s, -, hs2, heq⟩ := hdoomed _ h
    exact hs2 (wavNameOf_inj heq).symm
  have hw2 : wavNameOf ts ∉ dn.map replaceWavTxt := by
    intro h
    obtain ⟨s, -, -, heq⟩ := hdoomedTxt _ h
    exact wavNameOf_ne_txtNameOf ts s heq
  have ht1 : txtNameOf ts ∉ dn := by
    intro h
    obtain ⟨s, -, -, heq⟩ := hdoomed _ h
    exact wavNameOf_ne_txtNameOf s ts heq.symm
  have ht2 : txtNameOf ts ∉ dn.map replaceWavTxt := by
    intro h
    obtain ⟨s, -, hs2, heq⟩ := hdoomedTxt _ h
    exact hs2 (txtNameOf_inj heq).symm
  have hrot : rotate_files (outDir ++ [genWav ts tsT, genTxt ts tsT body]) =
      (outDir ++ [genWav ts tsT, genTxt ts tsT body]).filter
        (fun e => !(decide (e.name ∈ dn) || decide (e.name ∈ dn.map replaceWavTxt))) := rfl
  refine ⟨outDir.filter
    (fun e => !(decide (e.name ∈ dn) || decide (e.name ∈ dn.map replaceWavTxt))), ?_,
    fun e he => (List.mem_filter.mp he).1⟩
  rw [hrot, List.filter_append]
  congr 1
  rw [List.filter_cons, if_pos (by simp [genWav, hw1, hw2]), List.filter_cons,
    if_pos (by simp [genTxt, ht1, ht2]), List.filter_nil]

/-- C8: on input text `"Hi. Bye."` with a selected reference whose encoding
succeeds and a batched generation that succeeds, the handler calls
`encode_audio` exactly once (with the selected path), calls `batch_generate`
exactly once — with the two sentences `["Hi.", "Bye."]` and two identical
style representations — reports no error, rotates once, and the resulting
output directory is the previous survivors plus exactly one new
`.wav`/`.txt` pair whose `.txt` holds the input text verbatim; afterwards
`get_history` lists that pair first, previewing the input text.  The
previous directory is assumed to hold only readable artifact pairs older
than the fresh timestamp. -/
theorem C8_generate_hi_bye {Ctx W : Type}
    (encode : List Char → Except (List Char) Ctx)
    (batchGen : List (List Char) → List Ctx → Except (List Char) W)
    (ref ts : List Char) (ctx : Ctx) (w : W) (tsT : Nat) (outDir refDir : List Entry)
    (hold : ∀ e ∈ outDir, e.mtime < tsT ∧ ∃ s, ('.' : Char) ∉ s ∧ s ≠ ts ∧
      (e.name = wavNameOf s ∨ (e.name = txtNameOf s ∧ e.content ≠ none)))
    (hts : ('.' : Char) ∉ ts)
    (henc : encode ref = .ok ctx)
    (hgen : batchGen ["Hi.".data, "Bye.".data] [ctx, ctx] = .ok w) :
    ∃ keep rest,
      generateHandler encode batchGen "Hi. Bye.".data (some ref) ts tsT outDir refDir =
        ⟨none, [ref], [(["Hi.".data, "Bye.".data], [ctx, ctx])], 1,
          keep ++ [genWav ts tsT, genTxt ts tsT "Hi. Bye.".data], refDir⟩
      ∧ (∀ e ∈ keep, e ∈ outDir)
      ∧ get_history (some (keep ++ [genWav ts tsT, genTxt ts tsT "Hi. Bye.".data])) =
          .ok (⟨wavNameOf ts, "Hi. Bye.".data, wavNameOf ts⟩ :: rest) := by
  have hmt : ∀ e ∈ outDir, e.mtime < tsT := fun e he => (hold e he).1
  have hstruct : ∀ e ∈ outDir, ∃ s, ('.' : Char) ∉ s ∧ s ≠ ts ∧
      (e.name = wavNameOf s ∨ e.name = txtNameOf s) := by
    intro e he
    obtain ⟨-, s, h1, h2, h3⟩ := hold e he
    exact ⟨s, h1, h2, h3.imp id And.left⟩
  obtain ⟨keep, hkeq, hksub⟩ :=
    rotate_append_pair outDir ts "Hi. Bye.".data tsT hmt hstruct
  have hhandler : generateHandler encode batchGen "Hi. Bye.".data (some ref) ts tsT
      outDir refDir =
      ⟨none, [ref], [(["Hi.".data, "Bye.".data], [ctx, ctx])], 1,
        keep ++ [genWav ts tsT, genTxt ts tsT "Hi. Bye.".data], refDir⟩ := by
    unfold generateHandler
    rw [if_neg (by simp)]
    have hsp : split_text "Hi. Bye.".data = ["Hi.".data, "Bye.".data] := by decide
    simp only [henc, hsp, List.length_cons, List.length_nil, List.replicate, hgen, hkeq]
    rfl
  have hksubmt : ∀ e ∈ keep, e.mtime < tsT := fun e he => hmt e (hksub e he)
  obtain ⟨t'', hsort2, ht''⟩ :=
    sortedWavs_append_pair keep ts "Hi. Bye.".data tsT hksubmt
  have hsidecar : replaceWavTxt (genWav ts tsT).name = txtNameOf ts :=
    replaceWavTxt_wavNameOf hts
  have hfk : List.find? (fun e => decide (e.name = replaceWavTxt (genWav ts tsT).name))
      keep = none := by
    refine List.find?_eq_none.mpr ?_
    intro x hx
    simp only [decide_eq_true_eq]
    rw [hsidecar]
    obtain ⟨s, -, hs2, hshape⟩ := hstruct x (hksub x hx)
    rcases hshape with h | h
    · rw [h]; exact wavNameOf_ne_txtNameOf s ts
    · rw [h]; exact fun heq => hs2 (txtNameOf_inj heq)
  have hd1 : decide ((genWav ts tsT).name = replaceWavTxt (genWav ts tsT).name) = false := by
    refine decide_eq_false ?_
    rw [hsidecar]
    exact wavNameOf_ne_txtNameOf ts ts
  have hd2 : decide ((genTxt ts tsT "Hi. Bye.".data).name =
      replaceWavTxt (genWav ts tsT).name) = true := by
    refine decide_eq_true ?_
    rw [hsidecar]
    rfl
  have hfindHead : findSidecar (keep ++ [genWav ts tsT, genTxt ts tsT "Hi. Bye.".data])
      (genWav ts tsT) = some (genTxt ts tsT "Hi. Bye.".data) := by
    unfold findSidecar
    rw [find?_append_of_none _ hfk, List.find?_cons, hd1, List.find?_cons, hd2]
  have hOK : ∀ x ∈ t''.take 4,
      sidecarOKb (keep ++ [genWav ts tsT, genTxt ts tsT "Hi. Bye.".data]) x = true := by
    intro x hx
    have hx2 : x ∈ t'' := List.take_subset 4 t'' hx
    obtain ⟨hxk, hxglob⟩ := List.mem_filter.mp (ht'' x hx2)
    have hxo : x ∈ outDir := hksub x hxk
    obtain ⟨-, s, hs1, hs2, hshape⟩ := hold x hxo
    have hxname : x.name = wavNameOf s := by
      rcases hshape with h | h
      · exact h
      · rw [h.1, globMiraWav_txtNameOf] at hxglob
        cases hxglob
    unfold sidecarOKb
    cases hf : findSidecar (keep ++ [genWav ts tsT, genTxt ts tsT "Hi. Bye.".data]) x with
    | none => rfl
    | some e =>
      show e.content.isSome = true
      have hpe := List.find?_some hf
      have hme := List.mem_of_find?_eq_some hf
      simp only [decide_eq_true_eq] at hpe
      rw [hxname, replaceWavTxt_wavNameOf hs1] at hpe
      rcases List.mem_append.mp hme with hek | hep
      · obtain ⟨-, s', hs1', hs2', hshape'⟩ := hold e (hksub e hek)
        rcases hshape' with h | h
        · rw [h] at hpe
          exact absurd hpe (wavNameOf_ne_txtNameOf s' s)
        · rcases hcontent : e.content with - | c
          · exact absurd hcontent h.2
          · rfl
      · rcases List.mem_cons.mp hep with rfl | hep'
        · exact absurd hpe (wavNameOf_ne_txtNameOf ts s)
        · rcases List.mem_singleton.mp hep' with rfl
          exact absurd (txtNameOf_inj hpe).symm hs2
  have hprev : previewOf "Hi. Bye.".data = "Hi. Bye.".data := by decide
  refine ⟨keep, (t''.take 4).map
    (histEntryOf (keep ++ [genWav ts tsT, genTxt ts tsT "Hi. Bye.".data])),
    hhandler, hksub, ?_⟩
  show get_historyGo (keep ++ [genWav ts tsT, genTxt ts tsT "Hi. Bye.".data])
      ((sortedWavs (keep ++ [genWav ts tsT, genTxt ts tsT "Hi. Bye.".data])).take 5) = _
  rw [hsort2, List.take_succ_cons]
  have hcont : (genTxt ts tsT "Hi. Bye.".data).content = some "Hi. Bye.".data := rfl
  simp only [get_historyGo, hfindHead, hcont]
  rw [get_historyGo_ok _ _ hOK]
  simp only [Except.map, hprev]
  rfl

/-- Witness for C8 from an empty output directory with constant model calls. -/
theorem C8_generate_hi_bye_witness :
    ∃ keep rest,
      @generateHandler Nat Nat (fun _ => .ok 3) (fun _ _ => .ok 0)
        "Hi. Bye.".data (some "voice.wav".data) "20240101-000000".data 1 [] [] =
        ⟨none, ["voice.wav".data], [(["Hi.".data, "Bye.".data], [3, 3])], 1,
          keep ++ [genWav "20240101-000000".data 1,
            genTxt "20240101-000000".data 1 "Hi. Bye.".data], []⟩
      ∧ (∀ e ∈ keep, e ∈ ([] : List Entry))
      ∧ get_history (some (keep ++ [genWav "20240101-000000".data 1,
          genTxt "20240101-000000".data 1 "Hi. Bye.".data])) =
          .ok (⟨wavNameOf "20240101-000000".data, "Hi. Bye.".data,
            wavNameOf "20240101-000000".data⟩ :: rest) :=
  C8_generate_hi_bye (fun _ => .ok 3) (fun _ _ => .ok 0) "voice.wav".data
    "20240101-000000".data 3 0 1 [] [] (by simp) (by decide) rfl rfl

end Mira
